import Mathlib

/-!
# Chow ring ideals of matroids — verification of `src/sage/matroids/chow_ring_ideal.py`

Shallow embedding of the three Chow-ring-ideal presentations (non-augmented,
augmented Feitchner–Yuzvinsky, augmented atom-free): the generator builders
(`_gens_constructor`), the combinatorial Gröbner-basis engines
(`groebner_basis(algorithm='')`) and the algorithm dispatch
(`groebner_basis(algorithm=...)`).

Modelling conventions:
* The matroid collaborator is a record `MatroidData`: an ordered groundset
  enumeration `E`, a rank function `rnk` on subsets of the groundset, and a
  rank-indexed flats enumeration `flats` (each `flats i` an ordered list, as
  the Python iterates over `self._matroid.flats(i)`).
* The polynomial-ring substrate is an arbitrary commutative ring `R` together
  with the variable assignment produced by the registry: `v : Finset α → R`
  for flat indeterminates and (augmented FY presentation) `vE : α → R` for
  groundset-element indeterminates.  Python's `frozenset` comparisons
  `<`, `>`, `<=`, `>=` are strict/non-strict `Finset` inclusions.
* Python functions that can raise are embedded with `Except String`;
  Python's `None` result is `Option.none`.  The `try/except ValueError`
  around `PolynomialRing` in the constructors is internal naming recovery of
  the registry (never surfaced), so the embedded constructors have no error
  branch of their own.
-/

namespace ChowRing

/-- The matroid collaborator as consumed by `chow_ring_ideal.py`:
`groundset()` (as the iteration order `E`), `rank(S)` and `flats(i)`
(iterated in a fixed order). -/
structure MatroidData (α : Type) [DecidableEq α] : Type where
  E : List α
  rnk : Finset α → Nat
  flats : Nat → List (Finset α)

variable {α : Type} [DecidableEq α]

/-- `self._matroid.rank()`: the rank of the full groundset. -/
def matroidRank (M : MatroidData α) : Nat :=
  M.rnk M.E.toFinset

/-- `[X for i in range(1, self._matroid.rank()) for X in self._matroid.flats(i)]` —
the proper non-empty flats, ordered by rank then by the collaborator's
iteration order.  (`range(1, r)` is `[1, …, r-1]`.) -/
def properFlats (M : MatroidData α) : List (Finset α) :=
  ((List.range (matroidRank M)).drop 1).flatMap M.flats

/-! ## List scaffolding shared by the builders and engines -/

/-- The ordered pairs `(l[i], l[j])` with `i < j`, in Python's
`for i,F in enumerate(l): for G in l[i+1:]` order. -/
def upperPairs {β : Type} : List β → List (β × β)
  | [] => []
  | a :: t => (t.map fun b => (a, b)) ++ upperPairs t

/-- All ordered pairs `(x, y)` with `x` drawn from `l` and `y` from `m`
(Python's nested `for x in l: for y in m`). -/
def crossPairs {β : Type} (l m : List β) : List (β × β) :=
  l.flatMap fun a => m.map fun b => (a, b)

/-- All ordered pairs of elements of `l` — the brute-force pairwise scan. -/
def allPairs {β : Type} (l : List β) : List (β × β) :=
  crossPairs l l

/-- `itertools.combinations(l, r)`: the `r`-element sublists of `l`, in
Python's order (lexicographic in the positions of `l`). -/
def combinations {β : Type} : Nat → List β → List (List β)
  | 0, _ => [[]]
  | _ + 1, [] => []
  | r + 1, a :: t => ((combinations r t).map fun s => a :: s) ++ combinations (r + 1) t

variable {R : Type} [CommRing R]

/-- `sum(gens[i] for i in flats_containing[x])`: fold of `+` over the flats of
the list that contain `x`, starting from the ring's zero. -/
def containSum (flats : List (Finset α)) (v : Finset α → R) (x : α) : R :=
  flats.foldl (fun t F => if x ∈ F then t + v F else t) 0

/-- FY linear relation sum: `term += x_F` over the flats **not** containing `x`. -/
def notContainSum (flats : List (Finset α)) (v : Finset α → R) (x : α) : R :=
  flats.foldl (fun t F => if x ∉ F then t + v F else t) 0

/-- `term1 = sum of x_G over G >= F` (flats at least `F`), in list order. -/
def upperSum (flats : List (Finset α)) (v : Finset α → R) (F : Finset α) : R :=
  flats.foldl (fun t G => if F ⊆ G then t + v G else t) 0

/-- `term1 = sum of x_H over H > G` (flats strictly above `G`), in list order. -/
def strictUpperSum (flats : List (Finset α)) (v : Finset α → R) (G : Finset α) : R :=
  flats.foldl (fun t H => if G ⊂ H then t + v H else t) 0

/-- `term = sum of x_H over H < F` (flats strictly below `F`), in list order. -/
def strictLowerSum (flats : List (Finset α)) (v : Finset α → R) (F : Finset α) : R :=
  flats.foldl (fun t H => if H ⊂ F then t + v H else t) 0

/-- `term = R.one(); for x in subset: term *= flats_gen[x]` — the plain product
of the indeterminates of the members of `subset`. -/
def plainProd (v : Finset α → R) (subset : List (Finset α)) : R :=
  subset.foldl (fun t x => t * v x) 1

/-! ## Generator builders (`_gens_constructor`) -/

/-- `ChowRingIdeal_nonaug._gens_constructor`, quadratic part:
`gens[i] * gens[i+j+1]` over index pairs `i < i+j+1` whose flats are neither
strictly nested way. -/
def nonaugQ (M : MatroidData α) (v : Finset α → R) : List R :=
  (upperPairs (properFlats M)).flatMap fun p =>
    if ¬ (p.1 ⊂ p.2 ∨ p.2 ⊂ p.1) then [v p.1 * v p.2] else []

/-- `ChowRingIdeal_nonaug._gens_constructor`, linear part: for every pair of
distinct groundset positions `(x, y)` the difference of the two containing
sums (no deduplication). -/
def nonaugL (M : MatroidData α) (v : Finset α → R) : List R :=
  (upperPairs M.E).map fun p =>
    containSum (properFlats M) v p.1 - containSum (properFlats M) v p.2

/-- `ChowRingIdeal_nonaug._gens_constructor(poly_ring)`: `Q + L`. -/
def nonaugGens (M : MatroidData α) (v : Finset α → R) : List R :=
  nonaugQ M v ++ nonaugL M v

/-- `AugmentedChowRingIdeal_fy._gens_constructor`, quadratic part: the Python
loops over **all ordered pairs** `(F, G)` of proper flats (the diagonal
included) and appends `x_F * x_G` whenever neither is strictly contained in
the other. -/
def fyQ (M : MatroidData α) (vF : Finset α → R) : List R :=
  (properFlats M).flatMap fun F =>
    (properFlats M).flatMap fun G =>
      if ¬ (F ⊂ G ∨ G ⊂ F) then [vF F * vF G] else []

/-- `AugmentedChowRingIdeal_fy._gens_constructor`, linear part:
`y_x - sum of x_F over flats F not containing x`, one per groundset element. -/
def fyL (M : MatroidData α) (vE : α → R) (vF : Finset α → R) : List R :=
  M.E.map fun x => vE x - notContainSum (properFlats M) vF x

/-- `AugmentedChowRingIdeal_fy._gens_constructor(poly_ring)`: `Q + L`. -/
def fyGens (M : MatroidData α) (vE : α → R) (vF : Finset α → R) : List R :=
  fyQ M vF ++ fyL M vE vF

/-- `AugmentedChowRingIdeal_atom_free._gens_constructor(poly_ring)`: for every
ordered pair `(F, G)` of proper flats, optionally the quadratic `x_F x_G`,
then for every groundset element `x` the square of the containing sum and,
when `x ∉ F`, the product of `x_F` with the containing sum. -/
def atomFreeGens (M : MatroidData α) (v : Finset α → R) : List R :=
  (properFlats M).flatMap fun F =>
    (properFlats M).flatMap fun G =>
      (if ¬ (F ⊂ G ∨ G ⊂ F) then [v F * v G] else []) ++
      M.E.flatMap fun x =>
        [containSum (properFlats M) v x ^ 2] ++
        (if x ∉ F then [v F * containSum (properFlats M) v x] else [])

/-! ## Constructors (`__init__`)

The Python constructors perform **no validation**: they compute the proper
flats, build the registry (naming fallback recovered internally) and hand the
generator sequence to the substrate.  No code path raises, so the embedded
constructors always return `Except.ok`. -/

/-- `ChowRingIdeal_nonaug.__init__`: flats list and generator sequence. -/
def nonaugInit (M : MatroidData α) (v : Finset α → R) :
    Except String (List (Finset α) × List R) :=
  .ok (properFlats M, nonaugGens M v)

/-- `AugmentedChowRingIdeal_fy.__init__`: flats list and generator sequence. -/
def fyInit (M : MatroidData α) (vE : α → R) (vF : Finset α → R) :
    Except String (List (Finset α) × List R) :=
  .ok (properFlats M, fyGens M vE vF)

/-- `AugmentedChowRingIdeal_atom_free.__init__`: flats list and generators. -/
def atomFreeInit (M : MatroidData α) (v : Finset α → R) :
    Except String (List (Finset α) × List R) :=
  .ok (properFlats M, atomFreeGens M v)

/-! ## Non-augmented combinatorial Gröbner engine -/

/-- `sorted(subset, key=len)`: sort a subset of flats by cardinality. -/
def sortByCard (l : List (Finset α)) : List (Finset α) :=
  List.insertionSort (fun F G => F.card ≤ G.card) l

/-- The `flag` loop of `ChowRingIdeal_nonaug.groebner_basis`: `true` iff no
two **adjacent** entries of the (size-sorted) list have equal length. -/
def distinctAdjCards : List (Finset α) → Bool
  | [] => true
  | [_] => true
  | a :: b :: t => (decide (a.card ≠ b.card)) && distinctAdjCards (b :: t)

/-- The subset classification used by the engine: sort by size, then require
all adjacent cardinalities distinct ("the subset is a chain"). -/
def chainFlag (subset : List (Finset α)) : Bool :=
  distinctAdjCards (sortByCard subset)

/-- The maximality double loop: `false` iff some positional pair `j < k` of
the size-sorted list has `s[j] ≠ s[k]` and `s[j] ⊆ s[k]`. -/
def noNestedPair : List (Finset α) → Bool
  | [] => true
  | a :: t => (t.all fun b => decide ¬ (a ≠ b ∧ a ⊆ b)) && noNestedPair t

/-- `reduce(lambda a, b: a.union(b), l)` for nonempty `l` (the engine only
calls it on nonempty subsets). -/
def listUnion : List (Finset α) → Finset α
  | [] => ∅
  | a :: t => t.foldl (fun s b => s ∪ b) a

/-- The flats list the non-augmented engine works over:
`list(self._flats_generator)` with one `frozenset()` removed if present. -/
def nonaugEngineFlats (M : MatroidData α) : List (Finset α) :=
  (properFlats M).erase ∅

/-- The subset enumeration: `combinations(flats, r)` for `r = 0 … len(flats)`,
concatenated. -/
def nonaugSubsets (M : MatroidData α) : List (List (Finset α)) :=
  (List.range ((nonaugEngineFlats M).length + 1)).flatMap fun r =>
    combinations r (nonaugEngineFlats M)

variable [DecidableEq R]

/-- One iteration of the engine's main loop (the contribution of one
enumerated `subset` to `gb`), translated branch by branch from
`ChowRingIdeal_nonaug.groebner_basis(algorithm='')`. -/
def nonaugSubsetStep (M : MatroidData α) (v : Finset α → R)
    (flats : List (Finset α)) (subset : List (Finset α)) : List R :=
  if chainFlag subset = false then
    [plainProd v subset]
  else if subset = [] then
    flats.map fun F => upperSum flats v F ^ M.rnk F
  else if noNestedPair (sortByCard subset) then
    flats.flatMap fun F =>
      if listUnion (sortByCard subset) ⊂ F then
        if upperSum flats v F ≠ 0 then
          [plainProd v subset *
            upperSum flats v F ^
              (M.rnk F - M.rnk (((sortByCard subset).getLast?).getD ∅))]
        else []
      else []
  else []

/-- `ChowRingIdeal_nonaug.groebner_basis(algorithm='')`: the combinatorial
Gröbner engine of the non-augmented presentation. -/
def nonaugGB (M : MatroidData α) (v : Finset α → R) : List R :=
  (nonaugSubsets M).flatMap (nonaugSubsetStep M v (nonaugEngineFlats M))

/-! ## Feitchner–Yuzvinsky combinatorial Gröbner engine -/

/-- `AugmentedChowRingIdeal_fy.groebner_basis(algorithm='')`, translated
branch by branch.  The final `elif G < F` branch of the Python source is
reproduced verbatim (after `if i in G` and `elif not i in G`). -/
def fyGB (M : MatroidData α) (vE : α → R) (vF : Finset α → R) : List R :=
  (properFlats M).flatMap fun F =>
    (properFlats M).flatMap fun G =>
      (if ¬ (F ⊂ G ∨ G ⊂ F) then [vF F * vF G] else []) ++
      M.E.flatMap fun i =>
        (if containSum (properFlats M) vF i ≠ 0 then
          [vE i + containSum (properFlats M) vF i] else []) ++
        (if strictUpperSum (properFlats M) vF G ≠ 0 then
          [strictUpperSum (properFlats M) vF G ^ M.rnk G + 1] else []) ++
        (if i ∈ G then
          (if strictUpperSum (properFlats M) vF G ≠ 0 then
            [vE i * strictUpperSum (properFlats M) vF G ^ M.rnk G] else [])
        else if i ∉ G then
          [vE i * vF F]
        else if G ⊂ F then
          [vF G * strictUpperSum (properFlats M) vF G ^ (M.rnk F - M.rnk G)]
        else [])

/-- `AugmentedChowRingIdeal_fy.groebner_basis(algorithm='')` with the
`elif G < F` branch deleted: identical source except that after
`if i in G` the `elif not i in G` case is the final one. -/
def fyGBReduced (M : MatroidData α) (vE : α → R) (vF : Finset α → R) : List R :=
  (properFlats M).flatMap fun F =>
    (properFlats M).flatMap fun G =>
      (if ¬ (F ⊂ G ∨ G ⊂ F) then [vF F * vF G] else []) ++
      M.E.flatMap fun i =>
        (if containSum (properFlats M) vF i ≠ 0 then
          [vE i + containSum (properFlats M) vF i] else []) ++
        (if strictUpperSum (properFlats M) vF G ≠ 0 then
          [strictUpperSum (properFlats M) vF G ^ M.rnk G + 1] else []) ++
        (if i ∈ G then
          (if strictUpperSum (properFlats M) vF G ≠ 0 then
            [vE i * strictUpperSum (properFlats M) vF G ^ M.rnk G] else [])
        else
          [vE i * vF F])

/-! ## Atom-free combinatorial Gröbner engine -/

/-- `AugmentedChowRingIdeal_atom_free.groebner_basis(algorithm='')`. -/
def atomFreeGB (M : MatroidData α) (v : Finset α → R) : List R :=
  (nonaugEngineFlats M).flatMap fun F =>
    (nonaugEngineFlats M).flatMap fun G =>
      if ¬ (F ⊂ G ∨ G ⊂ F) then [v F * v G]
      else if F ⊂ G then
        if strictLowerSum (nonaugEngineFlats M) v F ≠ 0 then
          [v F * strictLowerSum (nonaugEngineFlats M) v F ^ M.rnk G *
            strictLowerSum (nonaugEngineFlats M) v F ^ (M.rnk G - M.rnk F)]
        else []
      else []

/-! ## Algorithm dispatch (`groebner_basis(self, algorithm='constructed')`)

Python control flow, common to the three classes:
`if algorithm == '':` return the combinatorial basis;
`elif algorithm == 'constructed':` call `super().groebner_basis()` (the
substrate's generic engine) but **discard its result**, so the function falls
off the end and returns `None`; any other selector matches no branch and the
function likewise returns `None`.  No branch raises. -/

/-- `ChowRingIdeal_nonaug.groebner_basis(algorithm=...)` dispatch. -/
def nonaugGroebnerBasis (M : MatroidData α) (v : Finset α → R)
    (algorithm : String) : Except String (Option (List R)) :=
  if algorithm = "" then .ok (some (nonaugGB M v))
  else if algorithm = "constructed" then .ok none
  else .ok none

/-- `AugmentedChowRingIdeal_fy.groebner_basis(algorithm=...)` dispatch. -/
def fyGroebnerBasis (M : MatroidData α) (vE : α → R) (vF : Finset α → R)
    (algorithm : String) : Except String (Option (List R)) :=
  if algorithm = "" then .ok (some (fyGB M vE vF))
  else if algorithm = "constructed" then .ok none
  else .ok none

/-- `AugmentedChowRingIdeal_atom_free.groebner_basis(algorithm=...)` dispatch. -/
def atomFreeGroebnerBasis (M : MatroidData α) (v : Finset α → R)
    (algorithm : String) : Except String (Option (List R)) :=
  if algorithm = "" then .ok (some (atomFreeGB M v))
  else if algorithm = "constructed" then .ok none
  else .ok none

/-- The ideal generated by a list of ring elements. -/
def idealOf (l : List R) : Ideal R :=
  Ideal.span {x | x ∈ l}

/-! ## Concrete matroids used as test inputs -/

/-- `BasisMatroid(groundset='abc', bases=['ab', 'ac'])` with `a, b, c`
renamed `0, 1, 2`: rank-2 matroid whose proper flats are `{a}` and `{b, c}`
(`b` and `c` are parallel). -/
def MabcD : MatroidData (Fin 3) where
  E := [0, 1, 2]
  rnk := fun S =>
    (if (0 : Fin 3) ∈ S then 1 else 0) +
    (if (1 : Fin 3) ∈ S ∨ (2 : Fin 3) ∈ S then 1 else 0)
  flats := fun r => if r = 1 then [{0}, {1, 2}] else []

/-- `GraphicMatroid(graphs.CycleGraph(3))` = `U(2, 3)`: three elements, three
rank-1 singleton flats, no rank-2 proper flats. -/
def cyc3D : MatroidData (Fin 3) where
  E := [0, 1, 2]
  rnk := fun S => min S.card 2
  flats := fun r => if r = 1 then [{0}, {1}, {2}] else []

/-- `U(1, 1)`: a single non-loop element; rank 1, no proper flats. -/
def rank1D : MatroidData (Fin 1) where
  E := [0]
  rnk := fun S => min S.card 1
  flats := fun _ => []

/-- A rank-0 matroid: one element which is a loop. -/
def rank0D : MatroidData (Fin 1) where
  E := [0]
  rnk := fun _ => 0
  flats := fun _ => []

/-- The basis claimed by the spec for the 3-cycle scenario: "all pairwise
products of the three atom-indeterminates plus their triple product". -/
def c9ClaimedList (v : Finset (Fin 3) → R) : List R :=
  [v {0} * v {1}, v {0} * v {2}, v {1} * v {2}, v {0} * v {1} * v {2}]

/-- The FY generator sequence claimed by the spec: exactly one quadratic
product per **unordered** pair of incomparable proper flats ("the same rule
as the non-augmented presentation"), followed by the linear forms. -/
def fyClaimedGens (M : MatroidData α) (vE : α → R) (vF : Finset α → R) : List R :=
  ((upperPairs (properFlats M)).filter
      (fun p => decide (¬ p.1 ⊆ p.2 ∧ ¬ p.2 ⊆ p.1))).map (fun p => vF p.1 * vF p.2) ++
  M.E.map fun x => vE x - notContainSum (properFlats M) vF x

/-- The variable registry for `MabcD` over the coefficient ring `ℤ`: the flat
`{a}` gets the first indeterminate of `ℤ[Aa, Abc]` and `{b, c}` the second —
the polynomial ring the Python constructor builds. -/
noncomputable def vMabc : Finset (Fin 3) → MvPolynomial (Fin 2) ℤ :=
  fun F => if F = {0} then MvPolynomial.X 0
    else if F = {1, 2} then MvPolynomial.X 1 else 0

/-- Evaluation of `ℤ[Aa, Abc]` at `Aa = Abc = 2` in `ℤ/4ℤ`: a ring map used
to separate the two ideals of the C1 counterexample. -/
noncomputable def phiM : MvPolynomial (Fin 2) ℤ →+* ZMod 4 :=
  MvPolynomial.eval₂Hom (Int.castRingHom (ZMod 4)) fun _ => 2

/-- The variable registry for `rank1D` over `ℤ` in the FY presentation: the
single groundset element gets the unique indeterminate of `ℤ[A0]`; there are
no proper flats, so the flat assignment is irrelevant (sent to `0`). -/
noncomputable def vErank1 : Fin 1 → MvPolynomial (Fin 1) ℤ :=
  fun _ => MvPolynomial.X 0

instance : IsTotal (Finset α) (fun F G => F.card ≤ G.card) :=
  ⟨fun _ _ => Nat.le_total _ _⟩

instance : IsTrans (Finset α) (fun F G => F.card ≤ G.card) :=
  ⟨fun _ _ _ h h2 => Nat.le_trans h h2⟩

instance : IsTrans (Finset α) (fun F G => F.card < G.card) :=
  ⟨fun _ _ _ h h2 => Nat.lt_trans h h2⟩

/-! ## List counting lemmas -/

theorem flatMap_ite_eq_filter_map {β γ : Type} (l : List β) (p : β → Prop)
    [DecidablePred p] (f : β → γ) :
    (l.flatMap fun b => if p b then [f b] else []) =
      (l.filter fun b => decide (p b)).map f := by
  induction l with
  | nil => rfl
  | cons a t ih =>
    by_cases h : p a <;>
      simp [List.flatMap_cons, List.filter_cons, h, ih]

theorem length_flatMap_ite {β γ : Type} (l : List β) (p : β → Prop)
    [DecidablePred p] (f : β → γ) :
    (l.flatMap fun b => if p b then [f b] else []).length =
      l.countP fun b => decide (p b) := by
  rw [flatMap_ite_eq_filter_map, List.length_map, List.countP_eq_length_filter]

theorem length_upperPairs {β : Type} :
    ∀ l : List β, (upperPairs l).length = Nat.choose l.length 2
  | [] => rfl
  | a :: t => by
    simp [upperPairs, length_upperPairs t, Nat.choose_succ_succ, Nat.choose_one_right,
      Nat.add_comm]

theorem crossPairs_cons_left {β : Type} (a : β) (t m : List β) :
    crossPairs (a :: t) m = (m.map fun b => (a, b)) ++ crossPairs t m := by
  simp [crossPairs, List.flatMap_cons]

theorem countP_crossPairs_nil_right {β : Type} (l : List β) (q : β × β → Bool) :
    (crossPairs l []).countP q = 0 := by
  induction l with
  | nil => rfl
  | cons a t ih => simpa [crossPairs_cons_left] using ih

theorem countP_crossPairs_cons_right {β : Type} (l : List β) (b : β) (m : List β)
    (q : β × β → Bool) :
    (crossPairs l (b :: m)).countP q =
      (l.countP fun x => q (x, b)) + (crossPairs l m).countP q := by
  induction l with
  | nil => rfl
  | cons a t ih =>
    simp only [crossPairs_cons_left, List.countP_append, List.countP_cons,
      List.map_cons, List.countP_map, ih]
    by_cases h : q (a, b) = true <;> simp [h, Function.comp] <;> omega

theorem countP_split {β : Type} (l : List β) (p q : β → Bool) :
    l.countP p = l.countP (fun a => p a && q a) + l.countP (fun a => p a && !q a) := by
  induction l with
  | nil => rfl
  | cons a t ih =>
    simp only [List.countP_cons, ih]
    by_cases h : p a = true <;> by_cases h2 : q a = true <;> simp [h, h2] <;> omega

/-! ## Incomparability and pair-scan lemmas -/

theorem nonNested_iff_of_ne {F G : Finset α} (h : F ≠ G) :
    (¬ (F ⊂ G ∨ G ⊂ F)) ↔ (¬ F ⊆ G ∧ ¬ G ⊆ F) := by
  constructor
  · intro hn
    constructor
    · exact fun hs => hn (Or.inl (lt_of_le_of_ne hs h))
    · exact fun hs => hn (Or.inr (lt_of_le_of_ne hs h.symm))
  · rintro ⟨h1, h2⟩ (hc | hc)
    · exact h1 hc.subset
    · exact h2 hc.subset

theorem incomparable_of_card_eq {F G : Finset α} (hne : F ≠ G) (hc : F.card = G.card) :
    ¬ F ⊆ G ∧ ¬ G ⊆ F := by
  constructor <;> intro hs
  · exact hne (Finset.eq_of_subset_of_card_le hs (le_of_eq hc.symm))
  · exact hne (Finset.eq_of_subset_of_card_le hs (le_of_eq hc)).symm

/-- Splitting the count of the brute-force scan at the head of the list. -/
theorem countP_allPairs_cons {β : Type} (P : β → β → Prop) [∀ a b, Decidable (P a b)]
    (a : β) (t : List β) :
    (allPairs (a :: t)).countP (fun p => decide (P p.1 p.2)) =
      ((a :: t).countP fun b => decide (P a b)) +
        ((t.countP fun x => decide (P x a)) +
          (allPairs t).countP (fun p => decide (P p.1 p.2))) := by
  simp only [allPairs, crossPairs_cons_left, List.countP_append, List.countP_map,
    countP_crossPairs_cons_right, Function.comp_def]

/-- The brute-force ordered pairwise scan of a duplicate-free list, counting a
symmetric irreflexive relation `P`, counts twice what the `i < j` scan counts
for any relation `Q` that agrees with `P` on distinct members. -/
theorem countP_allPairs_symm {β : Type} (P Q : β → β → Prop)
    [∀ a b, Decidable (P a b)] [∀ a b, Decidable (Q a b)]
    (hsymm : ∀ a b, P a b ↔ P b a) (hirr : ∀ a, ¬ P a a) :
    ∀ l : List β, l.Nodup → (∀ a ∈ l, ∀ b ∈ l, a ≠ b → (P a b ↔ Q a b)) →
      (allPairs l).countP (fun p => decide (P p.1 p.2)) =
        2 * (upperPairs l).countP (fun p => decide (Q p.1 p.2))
  | [], _, _ => rfl
  | a :: t, hN, hPQ => by
    obtain ⟨ha, ht⟩ := List.nodup_cons.mp hN
    have e1 := countP_allPairs_cons P a t
    have e2 : ((a :: t).countP fun b => decide (P a b)) =
        t.countP fun b => decide (P a b) := by
      rw [List.countP_cons]
      simp [hirr a]
    have e3 : (t.countP fun x => decide (P x a)) =
        t.countP fun b => decide (P a b) :=
      List.countP_congr fun x _ => by
        simp only [decide_eq_true_eq]
        exact hsymm x a
    have e4 : (t.countP fun b => decide (P a b)) =
        t.countP fun b => decide (Q a b) :=
      List.countP_congr fun b hb => by
        simp only [decide_eq_true_eq]
        exact hPQ a (List.mem_cons_self a t) b (List.mem_cons_of_mem a hb)
          (fun he => ha (he ▸ hb))
    have e5 : (upperPairs (a :: t)).countP (fun p => decide (Q p.1 p.2)) =
        (t.countP fun b => decide (Q a b)) +
          (upperPairs t).countP (fun p => decide (Q p.1 p.2)) := by
      simp only [upperPairs, List.countP_append, List.countP_map, Function.comp_def]
    have e6 := countP_allPairs_symm P Q hsymm hirr t ht
      (fun x hx y hy => hPQ x (List.mem_cons_of_mem a hx) y (List.mem_cons_of_mem a hy))
    rw [e1, e2, e3, e4, e6, e5]
    ring

/-- The brute-force scan of a duplicate-free list, counting a reflexive
relation false off the diagonal, counts exactly the list members. -/
theorem countP_allPairs_diagonal {β : Type} (P : β → β → Prop)
    [∀ a b, Decidable (P a b)]
    (hrefl : ∀ a, P a a) (hoff : ∀ a b, a ≠ b → ¬ P a b) :
    ∀ l : List β, l.Nodup →
      (allPairs l).countP (fun p => decide (P p.1 p.2)) = l.length
  | [], _ => rfl
  | a :: t, hN => by
    obtain ⟨ha, ht⟩ := List.nodup_cons.mp hN
    have e1 := countP_allPairs_cons P a t
    have e2 : ((a :: t).countP fun b => decide (P a b)) = 1 := by
      rw [List.countP_cons]
      have hz : (t.countP fun b => decide (P a b)) = 0 := by
        rw [List.countP_eq_zero]
        intro b hb
        simp only [decide_eq_true_eq]
        exact hoff a b fun he => ha (he ▸ hb)
      simp [hz, hrefl a]
    have e3 : (t.countP fun x => decide (P x a)) = 0 := by
      rw [List.countP_eq_zero]
      intro b hb
      simp only [decide_eq_true_eq]
      exact hoff b a fun he => ha (he.symm ▸ hb)
    have e4 := countP_allPairs_diagonal P hrefl hoff t ht
    rw [e1, e2, e3, e4, List.length_cons]
    ring

/-! ## Chain-classification lemmas (the engine's `flag` computation) -/

theorem distinctAdjCards_iff :
    ∀ l : List (Finset α),
      distinctAdjCards l = true ↔ List.Chain' (fun a b => a.card ≠ b.card) l
  | [] => by simp [distinctAdjCards]
  | [a] => by simp [distinctAdjCards]
  | a :: b :: t => by
    simp [distinctAdjCards, List.chain'_cons, distinctAdjCards_iff (b :: t), and_comm]

theorem chain'_and {β : Type} {r s : β → β → Prop} :
    ∀ {l : List β}, List.Chain' r l → List.Chain' s l →
      List.Chain' (fun a b => r a b ∧ s a b) l
  | [], _, _ => List.chain'_nil
  | [_], _, _ => List.chain'_singleton _
  | _ :: _ :: _, hr, hs =>
    List.chain'_cons.mpr
      ⟨⟨(List.chain'_cons.mp hr).1, (List.chain'_cons.mp hs).1⟩,
        chain'_and (List.chain'_cons.mp hr).2 (List.chain'_cons.mp hs).2⟩

theorem pairwise_and {β : Type} {r s : β → β → Prop} :
    ∀ {l : List β}, List.Pairwise r l → List.Pairwise s l →
      List.Pairwise (fun a b => r a b ∧ s a b) l
  | [], _, _ => List.Pairwise.nil
  | a :: t, hr, hs => by
    rw [List.pairwise_cons] at hr hs ⊢
    exact ⟨fun b hb => ⟨hr.1 b hb, hs.1 b hb⟩, pairwise_and hr.2 hs.2⟩

theorem pairwise_imp_mem {β : Type} {r s : β → β → Prop} :
    ∀ {l : List β}, (∀ a ∈ l, ∀ b ∈ l, r a b → s a b) →
      List.Pairwise r l → List.Pairwise s l
  | [], _, _ => List.Pairwise.nil
  | a :: t, h, hp => by
    rw [List.pairwise_cons] at hp ⊢
    refine ⟨fun b hb => h a (List.mem_cons_self a t) b (List.mem_cons_of_mem a hb)
      (hp.1 b hb), ?_⟩
    exact pairwise_imp_mem
      (fun x hx y hy => h x (List.mem_cons_of_mem a hx) y (List.mem_cons_of_mem a hy)) hp.2

theorem distinctAdjCards_sorted_iff (l : List (Finset α))
    (hs : List.Sorted (fun F G => F.card ≤ G.card) l) :
    distinctAdjCards l = true ↔ List.Pairwise (fun F G => F.card < G.card) l := by
  rw [distinctAdjCards_iff]
  constructor
  · intro hc
    have hlt : List.Chain' (fun F G : Finset α => F.card < G.card) l := by
      have hand := chain'_and (List.Pairwise.chain' hs) hc
      exact hand.imp fun _ _ h => lt_of_le_of_ne h.1 h.2
    exact List.chain'_iff_pairwise.mp hlt
  · intro hp
    exact (hp.imp fun h => Nat.ne_of_lt h).chain'

/-- Characterization of the engine's chain flag on a duplicate-free subset:
it is `true` exactly when all members have pairwise distinct cardinalities. -/
theorem chainFlag_eq_true_iff (subset : List (Finset α)) (hN : subset.Nodup) :
    chainFlag subset = true ↔
      ∀ F ∈ subset, ∀ G ∈ subset, F ≠ G → F.card ≠ G.card := by
  unfold chainFlag
  have hperm : List.Perm (sortByCard subset) subset := List.perm_insertionSort _ _
  have hsort : List.Sorted (fun F G : Finset α => F.card ≤ G.card) (sortByCard subset) :=
    List.sorted_insertionSort _ _
  rw [distinctAdjCards_sorted_iff _ hsort]
  constructor
  · intro hp F hF G hG hne
    have hF2 : F ∈ sortByCard subset := hperm.mem_iff.mpr hF
    have hG2 : G ∈ sortByCard subset := hperm.mem_iff.mpr hG
    exact (hp.imp fun h => Nat.ne_of_lt h).forall (fun _ _ h => Ne.symm h) hF2 hG2 hne
  · intro hall
    have hnd : (sortByCard subset).Nodup := hperm.nodup_iff.mpr hN
    refine pairwise_imp_mem ?_ (pairwise_and hsort hnd)
    intro a ha2 b hb2 hab
    exact lt_of_le_of_ne hab.1
      (hall a (hperm.mem_iff.mp ha2) b (hperm.mem_iff.mp hb2) hab.2)

theorem chainFlag_eq_false_iff (subset : List (Finset α)) (hN : subset.Nodup) :
    chainFlag subset = false ↔
      ∃ F ∈ subset, ∃ G ∈ subset, F ≠ G ∧ F.card = G.card := by
  have h := chainFlag_eq_true_iff subset hN
  constructor
  · intro hf
    by_contra hex
    push_neg at hex
    have htrue := h.mpr fun F hF G hG hne => hex F hF G hG hne
    rw [hf] at htrue
    exact absurd htrue (by decide)
  · rintro ⟨F, hF, G, hG, hne, hc⟩
    rw [Bool.eq_false_iff]
    intro htrue
    exact (h.mp htrue) F hF G hG hne hc

/-! ## The `if/elif` collapse used for the dead FY branch -/

theorem ite_ite_not_collapse {γ : Type} (c : Prop) [Decidable c] (A B C : γ) :
    (if c then A else if ¬ c then B else C) = if c then A else B := by
  by_cases h : c <;> simp [h]

/-! ## Degenerate matroids: rank at most one -/

theorem properFlats_eq_nil_of_rank_le_one (M : MatroidData α)
    (h : matroidRank M ≤ 1) : properFlats M = [] := by
  have h2 : matroidRank M = 0 ∨ matroidRank M = 1 := by omega
  unfold properFlats
  rcases h2 with h0 | h1
  · rw [h0]; rfl
  · rw [h1]; rfl

theorem nonaugGens_all_zero_of_flats_nil (M : MatroidData α) (v : Finset α → R)
    (h : properFlats M = []) : ∀ g ∈ nonaugGens M v, g = 0 := by
  intro g hg
  unfold nonaugGens nonaugQ nonaugL at hg
  rw [h] at hg
  simp only [upperPairs, List.flatMap_nil, List.nil_append, List.mem_map] at hg
  obtain ⟨p, _, he⟩ := hg
  rw [← he]
  simp [containSum]

theorem fyGens_of_flats_nil (M : MatroidData α) (vE : α → R) (vF : Finset α → R)
    (h : properFlats M = []) : fyGens M vE vF = M.E.map vE := by
  unfold fyGens fyQ fyL
  rw [h]
  simp [notContainSum]

theorem atomFreeGens_of_flats_nil (M : MatroidData α) (v : Finset α → R)
    (h : properFlats M = []) : atomFreeGens M v = [] := by
  unfold atomFreeGens
  rw [h]
  rfl

/-! ## Reshaping the FY quadratic loop as a filtered pair scan -/

theorem flatMap_flatMap_ite {β γ : Type} (l m : List β) (c : β → β → Prop)
    [∀ x y, Decidable (c x y)] (f : β → β → γ) :
    (l.flatMap fun x => m.flatMap fun y => if c x y then [f x y] else []) =
      ((crossPairs l m).filter (fun p => decide (c p.1 p.2))).map
        (fun p => f p.1 p.2) := by
  induction l with
  | nil => rfl
  | cons a t ih =>
    rw [List.flatMap_cons, crossPairs_cons_left, List.filter_append, List.map_append, ih]
    congr 1
    rw [flatMap_ite_eq_filter_map m (c a) (f a), List.filter_map, List.map_map]
    rfl

theorem fyQ_eq_filter_map (M : MatroidData α) (vF : Finset α → R) :
    fyQ M vF =
      ((allPairs (properFlats M)).filter
          (fun p => decide (¬ (p.1 ⊂ p.2 ∨ p.2 ⊂ p.1)))).map
        (fun p => vF p.1 * vF p.2) := by
  unfold fyQ allPairs
  exact flatMap_flatMap_ite (properFlats M) (properFlats M) _ _

/-- The non-nested count over the full ordered scan of a duplicate-free list:
one hit per member (the diagonal) plus two per unordered incomparable pair. -/
theorem countP_allPairs_nonNested (l : List (Finset α)) (hN : l.Nodup) :
    (allPairs l).countP (fun p => decide (¬ (p.1 ⊂ p.2 ∨ p.2 ⊂ p.1))) =
      l.length +
        2 * (upperPairs l).countP (fun p => decide (¬ (p.1 ⊂ p.2 ∨ p.2 ⊂ p.1))) := by
  rw [countP_split (allPairs l) _ (fun p => decide (p.1 = p.2))]
  have h1 : ((allPairs l).countP fun p =>
        decide (¬ (p.1 ⊂ p.2 ∨ p.2 ⊂ p.1)) && decide (p.1 = p.2)) =
      (allPairs l).countP fun p => decide (p.1 = p.2) := by
    refine List.countP_congr fun p _ => ?_
    simp only [Bool.and_eq_true, decide_eq_true_eq]
    constructor
    · exact fun h => h.2
    · intro h
      refine ⟨?_, h⟩
      rw [h]
      rintro (hc | hc) <;>
        exact (Finset.ssubset_def.mp hc).2 (Finset.ssubset_def.mp hc).1
  have h2 : ((allPairs l).countP fun p =>
        decide (¬ (p.1 ⊂ p.2 ∨ p.2 ⊂ p.1)) && !decide (p.1 = p.2)) =
      (allPairs l).countP fun p =>
        decide (p.1 ≠ p.2 ∧ ¬ p.1 ⊆ p.2 ∧ ¬ p.2 ⊆ p.1) := by
    refine List.countP_congr fun p _ => ?_
    simp only [Bool.and_eq_true, decide_eq_true_eq, Bool.not_eq_true',
      decide_eq_false_iff_not]
    constructor
    · rintro ⟨hnn, hne⟩
      exact ⟨hne, (nonNested_iff_of_ne hne).mp hnn⟩
    · rintro ⟨hne, hs1, hs2⟩
      exact ⟨(nonNested_iff_of_ne hne).mpr ⟨hs1, hs2⟩, hne⟩
  rw [h1, h2,
    countP_allPairs_diagonal (fun a b : Finset α => a = b) (fun _ => rfl)
      (fun _ _ h => h) l hN,
    countP_allPairs_symm (fun F G => F ≠ G ∧ ¬ F ⊆ G ∧ ¬ G ⊆ F)
      (fun F G => ¬ (F ⊂ G ∨ G ⊂ F))
      (fun a b => ⟨fun h => ⟨h.1.symm, h.2.2, h.2.1⟩, fun h => ⟨h.1.symm, h.2.2, h.2.1⟩⟩)
      (fun a h => h.1 rfl) l hN
      (fun a _ b _ hne =>
        ⟨fun h => (nonNested_iff_of_ne hne).mpr ⟨h.2.1, h.2.2⟩,
         fun h => ⟨hne, (nonNested_iff_of_ne hne).mp h⟩⟩)]

/-! # Claims -/

/-- C1: the claim says that for every matroid and coefficient ring the
combinatorial Gröbner engine's output generates the same ideal as the
generator sequence built by `_gens_constructor`.  This is false for the
non-augmented presentation of `BasisMatroid(groundset='abc',
bases=['ab','ac'])` over `ℤ` (the polynomial ring `ℤ[Aa, Abc]`, variables
assigned by the registry `vMabc`): the engine returns `[Aa, Abc]`, but `Aa`
is not in the ideal `(Aa*Abc, Aa - Abc)` of the constructed generators — the
evaluation `Aa = Abc = 2` in `ℤ/4ℤ` kills every constructed generator yet
sends `Aa` to `2 ≠ 0`. -/
theorem c1_counterexample :
    ¬ (idealOf (nonaugGens MabcD vMabc) = idealOf (nonaugGB MabcD vMabc)) := by
  intro heq
  have hv0 : vMabc {0} = MvPolynomial.X 0 := by
    unfold vMabc
    rw [if_pos rfl]
  have hv12 : vMabc {1, 2} = MvPolynomial.X 1 := by
    unfold vMabc
    rw [if_neg (by decide), if_pos rfl]
  have hgens : nonaugGens MabcD vMabc =
      [vMabc {0} * vMabc {1, 2}, (0 + vMabc {0}) - (0 + vMabc {1, 2}),
        (0 + vMabc {0}) - (0 + vMabc {1, 2}),
        (0 + vMabc {1, 2}) - (0 + vMabc {1, 2})] := rfl
  have hgb : nonaugGB MabcD vMabc =
      [(0 + vMabc {0}) ^ 1, (0 + vMabc {1, 2}) ^ 1] := rfl
  have hmem : MvPolynomial.X 0 ∈ idealOf (nonaugGB MabcD vMabc) := by
    apply Ideal.subset_span
    show MvPolynomial.X 0 ∈ nonaugGB MabcD vMabc
    rw [hgb, hv0]
    simp
  rw [← heq] at hmem
  have hmap : phiM (MvPolynomial.X 0) ∈
      Ideal.map phiM (idealOf (nonaugGens MabcD vMabc)) :=
    Ideal.mem_map_of_mem phiM hmem
  rw [idealOf, Ideal.map_span] at hmap
  have hφ0 : phiM (vMabc {0}) = 2 := by
    rw [hv0]
    unfold phiM
    rw [MvPolynomial.eval₂Hom_X']
  have hφ12 : phiM (vMabc {1, 2}) = 2 := by
    rw [hv12]
    unfold phiM
    rw [MvPolynomial.eval₂Hom_X']
  have hle : Ideal.span (phiM '' {x | x ∈ nonaugGens MabcD vMabc}) ≤ ⊥ := by
    rw [Ideal.span_le]
    rintro y ⟨g, hg, rfl⟩
    have hg2 : g ∈ nonaugGens MabcD vMabc := hg
    rw [hgens] at hg2
    simp only [List.mem_cons, List.not_mem_nil, or_false] at hg2
    simp only [SetLike.mem_coe, Ideal.mem_bot]
    rcases hg2 with h | h | h | h <;> subst h <;>
      simp only [map_mul, map_sub, map_add, map_zero, hφ0, hφ12] <;> decide
  have hz : phiM (MvPolynomial.X 0) = 0 := Ideal.mem_bot.mp (hle hmap)
  unfold phiM at hz
  rw [MvPolynomial.eval₂Hom_X'] at hz
  exact absurd hz (by decide)

/-- C2: the claim (and both the spec and the method docstrings) says the
fallback selector returns the substrate's full generic Gröbner basis.  In
the code all three `groebner_basis` methods call `super().groebner_basis()`
under `algorithm='constructed'` but discard the result, so the call returns
Python `None` — modelled here as `Except.ok none` (no exception, no basis). -/
theorem c2_fallback_returns_none (M : MatroidData α) (v : Finset α → R)
    (vE : α → R) (vF : Finset α → R) :
    nonaugGroebnerBasis M v "constructed" = Except.ok none ∧
    fyGroebnerBasis M vE vF "constructed" = Except.ok none ∧
    atomFreeGroebnerBasis M v "constructed" = Except.ok none := by
  refine ⟨?_, ?_, ?_⟩ <;> rfl

/-- C3 counterexample: the claim says a selector outside the two supported
values fails with an invalid-argument error.  The code's `if/elif` chain has
no `else`: the selector `"invalid"` matches no branch, no exception is
raised, and every presentation's `groebner_basis` silently returns `None`
(`Except.ok none`, not an `Except.error`). -/
theorem c3_counterexample :
    nonaugGroebnerBasis MabcD (fun _ => (0 : ℤ)) "invalid" = Except.ok none ∧
    fyGroebnerBasis MabcD (fun _ => (0 : ℤ)) (fun _ => (0 : ℤ)) "invalid" =
      Except.ok none ∧
    atomFreeGroebnerBasis MabcD (fun _ => (0 : ℤ)) "invalid" = Except.ok none ∧
    ("invalid" : String) ≠ "" ∧ ("invalid" : String) ≠ "constructed" :=
  ⟨rfl, rfl, rfl, by decide, by decide⟩

/-- C3 (amended): a selector other than the combinatorial one (`''`) and the
fallback one (`'constructed'`) does not raise: each of the three
`groebner_basis` methods falls through its `if/elif` chain and returns
Python `None` (`Except.ok none`). -/
theorem c3_amended (M : MatroidData α) (v : Finset α → R) (vE : α → R)
    (vF : Finset α → R) (alg : String) (h1 : alg ≠ "") (h2 : alg ≠ "constructed") :
    nonaugGroebnerBasis M v alg = Except.ok none ∧
    fyGroebnerBasis M vE vF alg = Except.ok none ∧
    atomFreeGroebnerBasis M v alg = Except.ok none := by
  unfold nonaugGroebnerBasis fyGroebnerBasis atomFreeGroebnerBasis
  simp [if_neg h1, if_neg h2]

/-- C3 witness: the amended statement applied to the selector `"invalid"`. -/
theorem c3_witness :
    (("invalid" : String) ≠ "" ∧ ("invalid" : String) ≠ "constructed") ∧
    (nonaugGroebnerBasis MabcD (fun _ => (0 : ℤ)) "invalid" = Except.ok none ∧
     fyGroebnerBasis MabcD (fun _ => (0 : ℤ)) (fun _ => (0 : ℤ)) "invalid" =
       Except.ok none ∧
     atomFreeGroebnerBasis MabcD (fun _ => (0 : ℤ)) "invalid" = Except.ok none) :=
  ⟨⟨by decide, by decide⟩,
    c3_amended MabcD (fun _ => (0 : ℤ)) (fun _ => (0 : ℤ)) (fun _ => (0 : ℤ))
      "invalid" (by decide) (by decide)⟩

/-- C4 counterexample: the claim says a subset contributes the plain product
of its members' indeterminates exactly when it is not a chain (contains an
incomparable pair).  The enumerated subset `[{a}, {b,c}]` of the proper
flats of `MabcD` contains an incomparable pair, yet its members have
distinct cardinalities, so the engine classifies it as a chain and its loop
iteration contributes nothing (`[]`), not the plain product. -/
theorem c4_counterexample :
    ([{0}, {1, 2}] : List (Finset (Fin 3))) ∈ nonaugSubsets MabcD ∧
    (∃ F ∈ ([{0}, {1, 2}] : List (Finset (Fin 3))),
      ∃ G ∈ ([{0}, {1, 2}] : List (Finset (Fin 3))), ¬ F ⊆ G ∧ ¬ G ⊆ F) ∧
    nonaugSubsetStep MabcD (fun _ => (1 : ℤ)) (nonaugEngineFlats MabcD)
        [{0}, {1, 2}] ≠ [plainProd (fun _ => (1 : ℤ)) [{0}, {1, 2}]] := by
  refine ⟨by decide, by decide, by decide⟩

/-- C4 (amended): a subset contributes the plain product of its members'
indeterminates via the non-chain branch exactly when two distinct members
have **equal cardinality** (the code compares adjacent lengths in the
size-sorted list).  Such a pair is necessarily incomparable, but
incomparable pairs of different cardinalities do not trigger the branch. -/
theorem c4_amended (M : MatroidData α) (v : Finset α → R)
    (fl : List (Finset α)) (subset : List (Finset α)) (hN : subset.Nodup) :
    (chainFlag subset = false ↔
      ∃ F ∈ subset, ∃ G ∈ subset, F ≠ G ∧ F.card = G.card) ∧
    ((∃ F ∈ subset, ∃ G ∈ subset, F ≠ G ∧ F.card = G.card) →
      ∃ F ∈ subset, ∃ G ∈ subset, ¬ F ⊆ G ∧ ¬ G ⊆ F) ∧
    (chainFlag subset = false →
      nonaugSubsetStep M v fl subset = [plainProd v subset]) := by
  refine ⟨chainFlag_eq_false_iff subset hN, ?_, ?_⟩
  · rintro ⟨F, hF, G, hG, hne, hc⟩
    exact ⟨F, hF, G, hG, incomparable_of_card_eq hne hc⟩
  · intro hf
    unfold nonaugSubsetStep
    rw [if_pos hf]

/-- C4 witness: the amended statement at the subset `[{a}, {b}]` of the
3-cycle matroid (equal cardinalities, hence the product branch). -/
theorem c4_witness :
    (([{0}, {1}] : List (Finset (Fin 3))).Nodup) ∧
    ((chainFlag ([{0}, {1}] : List (Finset (Fin 3))) = false ↔
      ∃ F ∈ ([{0}, {1}] : List (Finset (Fin 3))),
        ∃ G ∈ ([{0}, {1}] : List (Finset (Fin 3))), F ≠ G ∧ F.card = G.card) ∧
    ((∃ F ∈ ([{0}, {1}] : List (Finset (Fin 3))),
        ∃ G ∈ ([{0}, {1}] : List (Finset (Fin 3))), F ≠ G ∧ F.card = G.card) →
      ∃ F ∈ ([{0}, {1}] : List (Finset (Fin 3))),
        ∃ G ∈ ([{0}, {1}] : List (Finset (Fin 3))), ¬ F ⊆ G ∧ ¬ G ⊆ F) ∧
    (chainFlag ([{0}, {1}] : List (Finset (Fin 3))) = false →
      nonaugSubsetStep cyc3D (fun _ => (1 : ℤ)) (nonaugEngineFlats cyc3D)
          [{0}, {1}] = [plainProd (fun _ => (1 : ℤ)) [{0}, {1}]])) :=
  ⟨by decide,
    c4_amended cyc3D (fun _ => (1 : ℤ)) (nonaugEngineFlats cyc3D) [{0}, {1}] (by decide)⟩

/-- C5 counterexample: the claim says the FY builder emits exactly one
quadratic product per **unordered** pair of incomparable proper flats plus
one linear form per groundset element (`fyClaimedGens`).  On the 3-cycle
matroid the builder's loop runs over all ordered pairs including the
diagonal: it emits 9 quadratic generators (3 squares and both orders of the
3 incomparable pairs) plus 3 linear forms — 12 generators, not 6, so the
two sequences do not even agree as multisets. -/
theorem c5_counterexample :
    (fyGens cyc3D (fun _ => (0 : ℤ)) (fun _ => (0 : ℤ)) : Multiset ℤ) ≠
      (fyClaimedGens cyc3D (fun _ => (0 : ℤ)) (fun _ => (0 : ℤ)) : Multiset ℤ) ∧
    (fyGens cyc3D (fun _ => (0 : ℤ)) (fun _ => (0 : ℤ))).length = 12 ∧
    (fyClaimedGens cyc3D (fun _ => (0 : ℤ)) (fun _ => (0 : ℤ))).length = 6 := by
  refine ⟨by decide, by decide, by decide⟩

/-- C5 (amended): the FY builder's generator sequence is the quadratic
products over **all ordered pairs** `(F, G)` of proper flats with neither
strictly contained in the other — one square `x_F^2` per flat plus both
orders of every unordered incomparable pair — followed by the claimed
linear forms (one per groundset element). -/
theorem c5_amended (M : MatroidData α) (vE : α → R) (vF : Finset α → R)
    (hN : (properFlats M).Nodup) :
    fyGens M vE vF =
      ((allPairs (properFlats M)).filter
          (fun p => decide (¬ (p.1 ⊂ p.2 ∨ p.2 ⊂ p.1)))).map
        (fun p => vF p.1 * vF p.2) ++
        (M.E.map fun x => vE x - notContainSum (properFlats M) vF x) ∧
    (fyQ M vF).length =
      (properFlats M).length +
        2 * (upperPairs (properFlats M)).countP
          (fun p => decide (¬ (p.1 ⊂ p.2 ∨ p.2 ⊂ p.1))) := by
  constructor
  · unfold fyGens fyL
    rw [fyQ_eq_filter_map]
  · have h1 : (fyQ M vF).length =
        (allPairs (properFlats M)).countP
          (fun p => decide (¬ (p.1 ⊂ p.2 ∨ p.2 ⊂ p.1))) := by
      rw [fyQ_eq_filter_map, List.length_map, List.countP_eq_length_filter]
    rw [h1, countP_allPairs_nonNested (properFlats M) hN]

/-- C5 witness: the amended statement on the 3-cycle matroid over `ℤ`. -/
theorem c5_witness :
    ((properFlats cyc3D).Nodup) ∧
    (fyGens cyc3D (fun _ => (0 : ℤ)) (fun _ => (0 : ℤ)) =
      ((allPairs (properFlats cyc3D)).filter
          (fun p => decide (¬ (p.1 ⊂ p.2 ∨ p.2 ⊂ p.1)))).map
        (fun p => (fun _ => (0 : ℤ)) p.1 * (fun _ => (0 : ℤ)) p.2) ++
        (cyc3D.E.map fun x =>
          (fun _ => (0 : ℤ)) x - notContainSum (properFlats cyc3D) (fun _ => (0 : ℤ)) x) ∧
    (fyQ cyc3D (fun _ => (0 : ℤ))).length =
      (properFlats cyc3D).length +
        2 * (upperPairs (properFlats cyc3D)).countP
          (fun p => decide (¬ (p.1 ⊂ p.2 ∨ p.2 ⊂ p.1)))) :=
  ⟨by decide, c5_amended cyc3D (fun _ => (0 : ℤ)) (fun _ => (0 : ℤ)) (by decide)⟩

/-- C6: the non-augmented builder emits one quadratic generator per
unordered pair of incomparable proper flats — the ordered brute-force
pairwise scan over the flats list counts exactly twice the quadratic
generators — and exactly `C(|E|, 2)` linear generators, one per unordered
pair of distinct groundset elements, with no deduplication; the generator
sequence is the quadratic block followed by the linear block. -/
theorem c6_quadratic_linear_counts (M : MatroidData α) (v : Finset α → R)
    (hF : (properFlats M).Nodup) (hE : M.E.Nodup) :
    (allPairs (properFlats M)).countP
        (fun p => decide (p.1 ≠ p.2 ∧ ¬ p.1 ⊆ p.2 ∧ ¬ p.2 ⊆ p.1)) =
      2 * (nonaugQ M v).length ∧
    (nonaugL M v).length = Nat.choose M.E.toFinset.card 2 ∧
    nonaugGens M v = nonaugQ M v ++ nonaugL M v := by
  refine ⟨?_, ?_, rfl⟩
  · have hQ : (nonaugQ M v).length =
        (upperPairs (properFlats M)).countP
          (fun p => decide (¬ (p.1 ⊂ p.2 ∨ p.2 ⊂ p.1))) := by
      unfold nonaugQ
      exact length_flatMap_ite (upperPairs (properFlats M))
        (fun p => ¬ (p.1 ⊂ p.2 ∨ p.2 ⊂ p.1)) (fun p => v p.1 * v p.2)
    rw [hQ]
    exact countP_allPairs_symm
      (fun F G => F ≠ G ∧ ¬ F ⊆ G ∧ ¬ G ⊆ F)
      (fun F G => ¬ (F ⊂ G ∨ G ⊂ F))
      (fun a b => ⟨fun h => ⟨h.1.symm, h.2.2, h.2.1⟩, fun h => ⟨h.1.symm, h.2.2, h.2.1⟩⟩)
      (fun a h => h.1 rfl)
      (properFlats M) hF
      (fun a _ b _ hne =>
        ⟨fun h => (nonNested_iff_of_ne hne).mpr ⟨h.2.1, h.2.2⟩,
         fun h => ⟨hne, (nonNested_iff_of_ne hne).mp h⟩⟩)
  · unfold nonaugL
    rw [List.length_map, length_upperPairs, List.toFinset_card_of_nodup hE]

/-- C6 witness: the counts on `MabcD` over `ℤ` (1 quadratic generator, twice
counted by the 2-hit scan; 3 = C(3,2) linear generators). -/
theorem c6_witness :
    ((properFlats MabcD).Nodup ∧ MabcD.E.Nodup) ∧
    ((allPairs (properFlats MabcD)).countP
        (fun p => decide (p.1 ≠ p.2 ∧ ¬ p.1 ⊆ p.2 ∧ ¬ p.2 ⊆ p.1)) =
      2 * (nonaugQ MabcD (fun _ => (0 : ℤ))).length ∧
    (nonaugL MabcD (fun _ => (0 : ℤ))).length = Nat.choose MabcD.E.toFinset.card 2 ∧
    nonaugGens MabcD (fun _ => (0 : ℤ)) =
      nonaugQ MabcD (fun _ => (0 : ℤ)) ++ nonaugL MabcD (fun _ => (0 : ℤ))) :=
  ⟨⟨by decide, by decide⟩,
    c6_quadratic_linear_counts MabcD (fun _ => (0 : ℤ)) (by decide) (by decide)⟩

/-- C7 counterexample: the claim says that for rank ≤ 1 all three builders
produce an empty or all-zero generator sequence (the zero ideal).  For the
FY presentation of the rank-1 matroid `rank1D` over `ℤ` (ring `ℤ[A0]`,
element indeterminate `A0 = vErank1 0`) the linear loop still runs: the
generator sequence is `[A0 - 0]`, which is neither empty nor zero. -/
theorem c7_counterexample :
    matroidRank rank1D ≤ 1 ∧
    ¬ (fyGens rank1D vErank1 (fun _ => 0) = [] ∨
       ∀ g ∈ fyGens rank1D vErank1 (fun _ => 0), g = 0) := by
  constructor
  · decide
  · have hfy : fyGens rank1D vErank1 (fun _ => 0) = [vErank1 0 - 0] := rfl
    rintro (he | hz)
    · rw [hfy] at he
      exact List.cons_ne_nil _ _ he
    · have hx := hz (vErank1 0 - 0) (by rw [hfy]; exact List.mem_singleton_self _)
      rw [sub_zero] at hx
      exact MvPolynomial.X_ne_zero 0 hx

/-- C7 (amended): for a matroid of rank at most 1 the proper-flats list is
empty; the non-augmented generators are all zero, the atom-free generator
sequence is empty, but the FY generator sequence equals the list of
groundset-element indeterminates (so the FY ideal is the zero ideal only
when the groundset is empty). -/
theorem c7_amended (M : MatroidData α) (v : Finset α → R) (vE : α → R)
    (vF : Finset α → R) (hr : matroidRank M ≤ 1) :
    properFlats M = [] ∧
    (∀ g ∈ nonaugGens M v, g = 0) ∧
    atomFreeGens M v = [] ∧
    fyGens M vE vF = M.E.map vE := by
  have h := properFlats_eq_nil_of_rank_le_one M hr
  exact ⟨h, nonaugGens_all_zero_of_flats_nil M v h,
    atomFreeGens_of_flats_nil M v h, fyGens_of_flats_nil M vE vF h⟩

/-- C7 witness: the amended statement on the rank-1 matroid over `ℤ`. -/
theorem c7_witness :
    matroidRank rank1D ≤ 1 ∧
    (properFlats rank1D = [] ∧
     (∀ g ∈ nonaugGens rank1D (fun _ => (0 : ℤ)), g = 0) ∧
     atomFreeGens rank1D (fun _ => (0 : ℤ)) = [] ∧
     fyGens rank1D (fun _ => (1 : ℤ)) (fun _ => (0 : ℤ)) =
       rank1D.E.map fun _ => (1 : ℤ)) :=
  ⟨by decide,
    c7_amended rank1D (fun _ => (0 : ℤ)) (fun _ => (1 : ℤ)) (fun _ => (0 : ℤ))
      (by decide)⟩

/-- C8 counterexample: the claim says construction fails fast with a
descriptive error for a matroid of rank ≤ 0.  The constructors contain no
validation and no `raise`: on the rank-0 matroid `rank0D` all three
constructions return successfully (`Except.isOk`). -/
theorem c8_counterexample :
    matroidRank rank0D = 0 ∧
    (nonaugInit rank0D (fun _ => (0 : ℤ))).isOk = true ∧
    (fyInit rank0D (fun _ => (0 : ℤ)) (fun _ => (0 : ℤ))).isOk = true ∧
    (atomFreeInit rank0D (fun _ => (0 : ℤ))).isOk = true := by
  refine ⟨by decide, rfl, rfl, rfl⟩

/-- C8 (amended): no rank or flats validation exists.  Construction of each
of the three presentations succeeds for a rank-0 matroid, with an empty
proper-flats list (hence trivial generators). -/
theorem c8_amended (M : MatroidData α) (v : Finset α → R) (vE : α → R)
    (vF : Finset α → R) (hr : matroidRank M = 0) :
    nonaugInit M v = Except.ok (properFlats M, nonaugGens M v) ∧
    fyInit M vE vF = Except.ok (properFlats M, fyGens M vE vF) ∧
    atomFreeInit M v = Except.ok (properFlats M, atomFreeGens M v) ∧
    properFlats M = [] :=
  ⟨rfl, rfl, rfl, properFlats_eq_nil_of_rank_le_one M (by omega)⟩

/-- C8 witness: the amended statement on the rank-0 matroid over `ℤ`. -/
theorem c8_witness :
    matroidRank rank0D = 0 ∧
    (nonaugInit rank0D (fun _ => (0 : ℤ)) =
       Except.ok (properFlats rank0D, nonaugGens rank0D (fun _ => (0 : ℤ))) ∧
     fyInit rank0D (fun _ => (0 : ℤ)) (fun _ => (0 : ℤ)) =
       Except.ok (properFlats rank0D, fyGens rank0D (fun _ => (0 : ℤ)) (fun _ => (0 : ℤ))) ∧
     atomFreeInit rank0D (fun _ => (0 : ℤ)) =
       Except.ok (properFlats rank0D, atomFreeGens rank0D (fun _ => (0 : ℤ))) ∧
     properFlats rank0D = []) :=
  ⟨by decide,
    c8_amended rank0D (fun _ => (0 : ℤ)) (fun _ => (0 : ℤ)) (fun _ => (0 : ℤ))
      (by decide)⟩

/-- C9 counterexample: the claim says the engine's basis for the 3-cycle
matroid equals the pairwise products plus the triple product ("7 terms
total", yet that list has only 4).  Over `ℤ` with every atom-indeterminate
evaluated at `2`, the engine output has 7 entries and contains the entry `2`
(a single atom `A0`), which the claimed 4-element list does not contain. -/
theorem c9_counterexample :
    nonaugGB cyc3D (fun _ => (2 : ℤ)) ≠ c9ClaimedList (fun _ => (2 : ℤ)) ∧
    (2 : ℤ) ∈ nonaugGB cyc3D (fun _ => (2 : ℤ)) ∧
    (2 : ℤ) ∉ c9ClaimedList (fun _ => (2 : ℤ)) ∧
    (nonaugGB cyc3D (fun _ => (2 : ℤ))).length = 7 ∧
    (c9ClaimedList (fun _ => (2 : ℤ))).length = 4 := by
  refine ⟨by decide, by decide, by decide, by decide, by decide⟩

/-- C9 (amended): for the 3-cycle graphic matroid the non-augmented
combinatorial engine returns the three atom-indeterminates themselves,
followed by all pairwise products and the triple product — 7 terms, in this
order, for every coefficient ring and variable assignment. -/
theorem c9_amended {S : Type} [CommRing S] [DecidableEq S] (v : Finset (Fin 3) → S) :
    nonaugGB cyc3D v =
      [v {0}, v {1}, v {2}, v {0} * v {1}, v {0} * v {2}, v {1} * v {2},
        v {0} * v {1} * v {2}] := by
  have h : nonaugGB cyc3D v =
      [(0 + v {0}) ^ 1, (0 + v {1}) ^ 1, (0 + v {2}) ^ 1,
        1 * v {0} * v {1}, 1 * v {0} * v {2}, 1 * v {1} * v {2},
        1 * v {0} * v {1} * v {2}] := rfl
  rw [h]
  simp only [zero_add, pow_one, one_mul]

/-- C10: the `elif G < F` branch of the FY engine is dead code: the two
preceding guards `if i in G` / `elif not i in G` exhaust all cases, so the
engine computes the same output as the source with that branch deleted —
no term `x_G * (Σ_{H > G} x_H)^(rank F - rank G)` it would produce is ever
emitted. -/
theorem c10_dead_branch (M : MatroidData α) (vE : α → R) (vF : Finset α → R) :
    fyGB M vE vF = fyGBReduced M vE vF := by
  unfold fyGB fyGBReduced
  simp only [ite_ite_not_collapse]

end ChowRing
